import Mathlib

/-
  Verification development for the 4Dsurvival demo notebook
  (src/demo/demo_hypersearchDL.ipynb).

  The notebook defines one function, hypersearch_DL, which wraps an inner
  closure modelrun with optunity.cross_validated, hands the decorated closure
  to optunity.maximize, prints two summary lines and returns the optimal
  hyperparameters together with the search log.

  The embedding below translates that function over lists of rationals.
  External collaborators (optunity, lifelines.concordance_index) and the
  repository training routine DL_single_run (in trainDL.py, not shipped with
  the demo) are modelled from the specification's description of their
  interfaces; the training routine itself is kept abstract (a parameter),
  so every theorem quantifies over all possible trained models.
-/

namespace FourDSurvival

/-- A hyperparameter assignment: one value for each of the six tuned names
(lrexp, l1rexp, dro, units1, units2, alpha), as in the keyword arguments of
optunity.maximize in the notebook. -/
structure HP where
  lrexp : ℚ
  l1rexp : ℚ
  dro : ℚ
  units1 : ℚ
  units2 : ℚ
  alpha : ℚ
  deriving DecidableEq, Repr

/-- A search interval (low, high) for one hyperparameter, as the two-element
range lists passed to hypersearch_DL. -/
structure Bounds where
  lo : ℚ
  hi : ℚ
  deriving DecidableEq, Repr

/-- Membership of a value in a (low, high) range. -/
def inB (b : Bounds) (v : ℚ) : Prop := b.lo ≤ v ∧ v ≤ b.hi

/-- The six named ranges handed to optunity.maximize by hypersearch_DL. -/
structure SearchSpace where
  lrexp : Bounds
  l1rexp : Bounds
  dro : Bounds
  units1 : Bounds
  units2 : Bounds
  alpha : Bounds
  deriving DecidableEq, Repr

/-- The arguments of one call to the training routine DL_single_run, exactly
the keyword arguments at the call site in modelrun.  The learning rate and
L1 strength are passed as 10 raised to the recorded exponents (the call site
writes lr=10**lrexp, l1r=10**l1rexp); the record keeps the exponents, and the
theorems state the corresponding powers. -/
structure TrainArgs where
  xtr : List (List ℚ)
  ytr : List (ℚ × ℚ)
  units1 : ℚ
  units2 : ℚ
  dro : ℚ
  lrexp : ℚ
  l1rexp : ℚ
  alpha : ℚ
  batchsize : ℕ
  numepochs : ℕ
  deriving DecidableEq

/-- Modelled from the spec: the prediction method of the trained model.  The
network has two outputs (reconstruction and survival prediction), so predict
returns a pair; the notebook takes element [1], the per-sample risk scores. -/
def Model : Type := List (List ℚ) → List (List ℚ) × List ℚ

/-- Modelled from the spec: DL_single_run from trainDL.py (repository code not
shipped under src/), "an external training routine invoked with named
parameters ... returning an object exposing a trained model with a prediction
method".  Kept fully abstract: a trainer is any function from the training
arguments to a model. -/
def Trainer : Type := TrainArgs → Model

/-- The arguments of one call to lifelines' concordance_index, in positional
order: event times, predicted scores, event-observed indicators. -/
structure ConcArgs where
  times : List ℚ
  scores : List ℚ
  events : List ℚ
  deriving DecidableEq

/-- All unordered pairs of elements of a list, each taken once. -/
def allPairs {α : Type} : List α → List (α × α)
  | [] => []
  | x :: xs => xs.map (fun y => (x, y)) ++ allPairs xs

/-- Whether a pair of (time, score, event) rows is comparable for Harrell's
concordance: the earlier time must carry an observed event. -/
def pairDen (a b : ℚ × ℚ × ℚ) : ℚ :=
  if (a.1 < b.1 ∧ a.2.2 = 1) ∨ (b.1 < a.1 ∧ b.2.2 = 1) then 1 else 0

/-- Concordance contribution of an ordered comparable pair whose first member
has the earlier event time: 1 if the predicted scores agree with the time
order (smaller score for the earlier death), 1/2 on a prediction tie. -/
def concOf (early late : ℚ × ℚ × ℚ) : ℚ :=
  if early.2.1 < late.2.1 then 1 else if early.2.1 = late.2.1 then 1/2 else 0

/-- Concordance contribution of an unordered pair. -/
def pairNum (a b : ℚ × ℚ × ℚ) : ℚ :=
  if a.1 < b.1 ∧ a.2.2 = 1 then concOf a b
  else if b.1 < a.1 ∧ b.2.2 = 1 then concOf b a
  else 0

/-- Modelled from the spec: lifelines.utils.concordance_index, "a
rank-correlation metric for survival models measuring the fraction of
comparable sample pairs ordered consistently between predicted risk and
observed outcome", taking event times, predicted scores and event indicators.
Returns none when no pair is comparable (lifelines raises there). -/
def concordance_index (event_times predicted_scores event_observed : List ℚ) :
    Option ℚ :=
  let rows := event_times.zip (predicted_scores.zip event_observed)
  let ps := allPairs rows
  let den := (ps.map (fun p => pairDen p.1 p.2)).sum
  if den = 0 then none
  else some ((ps.map (fun p => pairNum p.1 p.2)).sum / den)

/-- Modelled from the spec: the test rows of cross-validation fold k out of
nfolds, a deterministic round-robin assignment of row indices to folds
(the splitting strategy is an opaque internal of optunity.cross_validated;
only the partition into nfolds folds matters to the claims). -/
def foldTest {α : Type} (nfolds k : ℕ) (l : List α) : List α :=
  (l.enum.filter (fun p => p.1 % nfolds == k)).map Prod.snd

/-- The training rows of fold k: every row not in the test part. -/
def foldTrain {α : Type} (nfolds k : ℕ) (l : List α) : List α :=
  (l.enum.filter (fun p => !(p.1 % nfolds == k))).map Prod.snd

/-- The TrainArgs built at the DL_single_run call site inside modelrun for a
given hyperparameter candidate and training fold. -/
def trainArgsFor (hp : HP) (batch_size num_epochs : ℕ)
    (xtr : List (List ℚ)) (ytr : List (ℚ × ℚ)) : TrainArgs :=
  ⟨xtr, ytr, hp.units1, hp.units2, hp.dro, hp.lrexp, hp.l1rexp, hp.alpha,
   batch_size, num_epochs⟩

/-- The ConcArgs built at the concordance_index call site inside modelrun:
first argument y_test[:,1] (second pair component of each outcome row),
second argument the negated predictions, third y_test[:,0] (first pair
component of each outcome row). -/
def concArgsFor (yte : List (ℚ × ℚ)) (cv_preds : List ℚ) : ConcArgs :=
  ⟨yte.map (fun r => r.2), cv_preds.map (fun p => -p), yte.map (fun r => r.1)⟩

/-- Everything one fold evaluation of modelrun does: the training call made,
the held-out outcome rows, the predictions selected from output index 1, the
arguments handed to concordance_index, and the resulting fold score. -/
structure FoldRec where
  targs : TrainArgs
  yte : List (ℚ × ℚ)
  cv_preds : List ℚ
  cargs : ConcArgs
  score : Option ℚ
  deriving DecidableEq

/-- One fold evaluation of the inner closure modelrun: train one model on the
training fold, predict on the held-out fold taking output index 1, and score
with the concordance index. -/
def foldRec (trainer : Trainer) (hp : HP) (batch_size num_epochs : ℕ)
    (xtr : List (List ℚ)) (ytr : List (ℚ × ℚ))
    (xte : List (List ℚ)) (yte : List (ℚ × ℚ)) : FoldRec :=
  let targs := trainArgsFor hp batch_size num_epochs xtr ytr
  let model := trainer targs
  let cv_preds := (model xte).2
  let cargs := concArgsFor yte cv_preds
  ⟨targs, yte, cv_preds, cargs,
   concordance_index cargs.times cargs.scores cargs.events⟩

/-- The nfolds fold evaluations that the cross-validated modelrun performs for
one hyperparameter candidate. -/
def foldRecs (trainer : Trainer) (hp : HP) (batch_size num_epochs : ℕ)
    (x_data : List (List ℚ)) (y_data : List (ℚ × ℚ)) (nfolds : ℕ) :
    List FoldRec :=
  (List.range nfolds).map (fun k =>
    foldRec trainer hp batch_size num_epochs
      (foldTrain nfolds k x_data) (foldTrain nfolds k y_data)
      (foldTest nfolds k x_data) (foldTest nfolds k y_data))

/-- Modelled from the spec: the optunity.cross_validated decoration of
modelrun — evaluate the inner closure on each of the nfolds folds and return
the mean fold score; any fold failure propagates (none). -/
def modelrun (trainer : Trainer) (x_data : List (List ℚ))
    (y_data : List (ℚ × ℚ)) (nfolds batch_size num_epochs : ℕ)
    (hp : HP) : Option ℚ :=
  let rs := foldRecs trainer hp batch_size num_epochs x_data y_data nfolds
  if rs.all (fun r => r.score.isSome) then
    some ((rs.map (fun r => r.score.getD 0)).sum / (nfolds : ℚ))
  else none

/-- Clamp a raw sample into the unit interval. -/
def clamp01 (q : ℚ) : ℚ := max 0 (min 1 q)

/-- A box-constrained sample: the solver draws a point of [lo, hi] as an
affine image of a raw draw clamped into [0, 1]. -/
def sampleIn (b : Bounds) (raw : ℚ) : ℚ := b.lo + clamp01 raw * (b.hi - b.lo)

/-- One hyperparameter candidate, sampled coordinatewise inside the six
supplied ranges from a raw draw per coordinate. -/
def sampleHP (sp : SearchSpace) (raw : ℕ → ℚ) : HP :=
  ⟨sampleIn sp.lrexp (raw 0), sampleIn sp.l1rexp (raw 1),
   sampleIn sp.dro (raw 2), sampleIn sp.units1 (raw 3),
   sampleIn sp.units2 (raw 4), sampleIn sp.alpha (raw 5)⟩

/-- The candidate list a solver evaluates: num_evals box-constrained samples,
driven by an arbitrary raw seed function (eval index, coordinate index). -/
def candidates (sp : SearchSpace) (seed : ℕ → ℕ → ℚ) (num_evals : ℕ) :
    List HP :=
  (List.range num_evals).map (fun k => sampleHP sp (seed k))

/-- Evaluate the objective on every candidate; a single failure fails the
whole search, as an exception in the closure propagates. -/
def evalAll (f : HP → Option ℚ) : List HP → Option (List (HP × ℚ))
  | [] => some []
  | c :: cs =>
    match f c, evalAll f cs with
    | some s, some rest => some ((c, s) :: rest)
    | _, _ => none

/-- The best evaluated candidate: fold over the list keeping the pair with
the larger score. -/
def pickBest (x : HP × ℚ) : List (HP × ℚ) → HP × ℚ
  | [] => x
  | y :: ys => pickBest (if x.2 < y.2 then y else x) ys

/-- The search log returned by the optimizer; searchlog.optimum is the best
cross-validated score found. -/
structure SearchLog where
  optimum : ℚ
  deriving DecidableEq, Repr

/-- Modelled from the spec: optunity.maximize — evaluate num_evals candidates
drawn inside the per-parameter bounds and return the argmax hyperparameter
set, the search log, and a third solver-info value, as the triple the
notebook unpacks. -/
def maximize (f : HP → Option ℚ) (num_evals : ℕ) (sp : SearchSpace)
    (seed : ℕ → ℕ → ℚ) : Option (HP × SearchLog × Unit) :=
  match evalAll f (candidates sp seed num_evals) with
  | none => none
  | some [] => none
  | some (e :: es) =>
    let best := pickBest e es
    some (best.1, ⟨best.2⟩, ())

/-- hypersearch_DL from the notebook: decorate modelrun with cross-validation
over (x_data, y_data), maximize it over the six ranges, and return the pair
(optimal_pars, searchlog), discarding the third value of the maximize triple.
The solver method name and the raw seed draws parameterize the modelled
solver. -/
def hypersearch_DL (trainer : Trainer) (seed : ℕ → ℕ → ℚ)
    (x_data : List (List ℚ)) (y_data : List (ℚ × ℚ)) (method : String)
    (nfolds nevals : ℕ) (sp : SearchSpace) (batch_size num_epochs : ℕ) :
    Option (HP × SearchLog) :=
  match maximize (modelrun trainer x_data y_data nfolds batch_size num_epochs)
      nevals sp seed with
  | none => none
  | some t => some (t.1, t.2.1)

/-- Every fold evaluation performed over the whole search: for each candidate
the optimizer tries, the nfolds fold records of its cross-validated
evaluation, in order. -/
def searchFoldRecs (trainer : Trainer) (seed : ℕ → ℕ → ℚ)
    (x_data : List (List ℚ)) (y_data : List (ℚ × ℚ))
    (nfolds nevals : ℕ) (sp : SearchSpace) (batch_size num_epochs : ℕ) :
    List FoldRec :=
  (candidates sp seed nevals).flatMap
    (fun hp => foldRecs trainer hp batch_size num_epochs x_data y_data nfolds)

/-- Rendering of a rational to three decimal places, the %1.3f conversion
applied to searchlog.optimum in the second print statement. -/
def fmt3 (q : ℚ) : String :=
  let m : ℤ := ⌊q * 1000 + 1/2⌋
  let sign := if m < 0 then "-" else ""
  let a := m.natAbs
  let frac := a % 1000
  let fracs :=
    if frac < 10 then "00" ++ toString frac
    else if frac < 100 then "0" ++ toString frac
    else toString frac
  sign ++ toString (a / 1000) ++ "." ++ fracs

/-- Rendering of the optimal hyperparameter mapping, as str(optimal_pars)
lists each name with its value. -/
def reprHP (p : HP) : String :=
  "lrexp: " ++ toString p.lrexp ++ ", l1rexp: " ++ toString p.l1rexp ++
  ", dro: " ++ toString p.dro ++ ", units1: " ++ toString p.units1 ++
  ", units2: " ++ toString p.units2 ++ ", alpha: " ++ toString p.alpha

/-- The two lines printed by the last statements of hypersearch_DL before it
returns: the selected hyperparameters and the tuned cross-validated score
formatted to three decimal places. -/
def printedLines (optimal_pars : HP) (searchlog : SearchLog) : List String :=
  ["Optimal hyperparameters : " ++ reprHP optimal_pars,
   "Cross-validated C after tuning: " ++ fmt3 searchlog.optimum]

/-- The console output of one hypersearch_DL call: the two printed lines on
success, nothing when the call fails.  The function writes nothing else to
any channel or file. -/
def hypersearch_output (trainer : Trainer) (seed : ℕ → ℕ → ℚ)
    (x_data : List (List ℚ)) (y_data : List (ℚ × ℚ)) (method : String)
    (nfolds nevals : ℕ) (sp : SearchSpace) (batch_size num_epochs : ℕ) :
    Option (List String) :=
  (hypersearch_DL trainer seed x_data y_data method nfolds nevals sp
      batch_size num_epochs).map (fun r => printedLines r.1 r.2)

/-- The caller-visible notebook state around a hypersearch_DL call: the one
loaded dataset (x_full, y_full). -/
structure NotebookState where
  x_full : List (List ℚ)
  y_full : List (ℚ × ℚ)
  deriving DecidableEq

/-- One notebook-level invocation of hypersearch_DL on the loaded dataset.
The function body contains no assignment to x_data, y_data or any
enclosing-scope variable, so the state component is passed through
untouched; the returned pair is (state after the call, returned value). -/
def hypersearch_step (trainer : Trainer) (seed : ℕ → ℕ → ℚ) (method : String)
    (nfolds nevals : ℕ) (sp : SearchSpace) (batch_size num_epochs : ℕ)
    (st : NotebookState) : NotebookState × Option (HP × SearchLog) :=
  (st, hypersearch_DL trainer seed st.x_full st.y_full method nfolds nevals
    sp batch_size num_epochs)

/-- A concrete trainer for witnesses: every trained model predicts an empty
reconstruction and risk 0 for each test sample. -/
def trainer0 : Trainer := fun _ => fun xte => ([], xte.map (fun _ => 0))

/-- A concrete raw-draw seed for witnesses: always 0, so every sampled
coordinate sits at the low end of its range. -/
def seed0 : ℕ → ℕ → ℚ := fun _ _ => 0

/-- A concrete 4-sample, 1-feature input matrix for witnesses. -/
def x0 : List (List ℚ) := [[1], [2], [3], [4]]

/-- A concrete outcome matrix for witnesses: every sample has an observed
event (first column 1) and the survival times 1..4 (second column). -/
def y0 : List (ℚ × ℚ) := [(1, 1), (1, 2), (1, 3), (1, 4)]

/-- Concrete non-degenerate search ranges for witnesses, the ranges of the
notebook's example invocation. -/
def sp0 : SearchSpace :=
  ⟨⟨-6, -9/2⟩, ⟨-7, -4⟩, ⟨1/10, 9/10⟩, ⟨75, 250⟩, ⟨5, 20⟩, ⟨3/10, 7/10⟩⟩

/-- Concrete degenerate search ranges (low = high for every parameter). -/
def sp1 : SearchSpace :=
  ⟨⟨-5, -5⟩, ⟨-5, -5⟩, ⟨1/2, 1/2⟩, ⟨100, 100⟩, ⟨10, 10⟩, ⟨1/2, 1/2⟩⟩

/-- The hyperparameters the search with sp0, seed0 selects. -/
def pars0 : HP := ⟨-6, -7, 1/10, 75, 5, 3/10⟩

/-- The hyperparameters the degenerate search with sp1 selects. -/
def pars1 : HP := ⟨-5, -5, 1/2, 100, 10, 1/2⟩

/-- The search log both witness searches produce: with risk 0 everywhere all
predictions tie, so every comparable pair scores 1/2. -/
def log0 : SearchLog := ⟨1/2⟩

/-- The first fold record of the witness search. -/
def r0 : FoldRec :=
  foldRec trainer0 (sampleHP sp0 (seed0 0)) 16 100
    (foldTrain 2 0 x0) (foldTrain 2 0 y0) (foldTest 2 0 x0) (foldTest 2 0 y0)

theorem clamp01_mem (q : ℚ) : 0 ≤ clamp01 q ∧ clamp01 q ≤ 1 := by
  unfold clamp01
  exact ⟨le_max_left 0 _, max_le (by norm_num) (min_le_left 1 q)⟩

theorem sampleIn_mem (b : Bounds) (raw : ℚ) (h : b.lo ≤ b.hi) :
    inB b (sampleIn b raw) := by
  obtain ⟨h0, h1⟩ := clamp01_mem raw
  unfold sampleIn inB
  constructor
  · nlinarith
  · nlinarith

theorem sampleIn_degenerate (b : Bounds) (raw : ℚ) (h : b.hi = b.lo) :
    sampleIn b raw = b.lo := by
  unfold sampleIn
  rw [h]
  ring

theorem listSum_nonneg (l : List ℚ) (h : ∀ a ∈ l, 0 ≤ a) : 0 ≤ l.sum := by
  induction l with
  | nil => simp
  | cons a t ih =>
    simp only [List.sum_cons]
    exact add_nonneg (h a (by simp)) (ih fun b hb => h b (by simp [hb]))

theorem listSum_le_len (l : List ℚ) (h : ∀ a ∈ l, a ≤ 1) :
    l.sum ≤ (l.length : ℚ) := by
  induction l with
  | nil => simp
  | cons a t ih =>
    simp only [List.sum_cons, List.length_cons]
    push_cast
    have := ih fun b hb => h b (by simp [hb])
    have ha := h a (by simp)
    linarith

theorem listSum_map_le (p q : (ℚ × ℚ × ℚ) × (ℚ × ℚ × ℚ) → ℚ)
    (l : List ((ℚ × ℚ × ℚ) × (ℚ × ℚ × ℚ))) (h : ∀ a ∈ l, p a ≤ q a) :
    (l.map p).sum ≤ (l.map q).sum := by
  induction l with
  | nil => simp
  | cons a t ih =>
    simp only [List.map_cons, List.sum_cons]
    exact add_le_add (h a (by simp)) (ih fun b hb => h b (by simp [hb]))

theorem concOf_mem (a b : ℚ × ℚ × ℚ) : 0 ≤ concOf a b ∧ concOf a b ≤ 1 := by
  unfold concOf
  split_ifs <;> norm_num

theorem pairDen_nonneg (a b : ℚ × ℚ × ℚ) : 0 ≤ pairDen a b := by
  unfold pairDen
  split_ifs <;> norm_num

theorem pairNum_nonneg (a b : ℚ × ℚ × ℚ) : 0 ≤ pairNum a b := by
  unfold pairNum
  split_ifs with h1 h2
  · exact (concOf_mem a b).1
  · exact (concOf_mem b a).1
  · exact le_refl 0

theorem pairNum_le_pairDen (a b : ℚ × ℚ × ℚ) : pairNum a b ≤ pairDen a b := by
  unfold pairNum pairDen
  by_cases h1 : a.1 < b.1 ∧ a.2.2 = 1
  · rw [if_pos h1, if_pos (Or.inl h1)]
    exact (concOf_mem a b).2
  · rw [if_neg h1]
    by_cases h2 : b.1 < a.1 ∧ b.2.2 = 1
    · rw [if_pos h2, if_pos (Or.inr h2)]
      exact (concOf_mem b a).2
    · rw [if_neg h2]
      have hno : ¬(a.1 < b.1 ∧ a.2.2 = 1 ∨ b.1 < a.1 ∧ b.2.2 = 1) := by tauto
      rw [if_neg hno]

theorem concordance_some_mem (t s e : List ℚ) (c : ℚ)
    (h : concordance_index t s e = some c) : 0 ≤ c ∧ c ≤ 1 := by
  unfold concordance_index at h
  set ps := allPairs (t.zip (s.zip e)) with hps
  by_cases hden : (ps.map (fun p => pairDen p.1 p.2)).sum = 0
  · simp [hden] at h
  · simp only [hps.symm, hden, if_false] at h
    have hnum0 : 0 ≤ (ps.map (fun p => pairNum p.1 p.2)).sum :=
      listSum_nonneg _ (by
        intro a ha
        obtain ⟨p, _, rfl⟩ := List.mem_map.1 ha
        exact pairNum_nonneg p.1 p.2)
    have hden0 : 0 ≤ (ps.map (fun p => pairDen p.1 p.2)).sum :=
      listSum_nonneg _ (by
        intro a ha
        obtain ⟨p, _, rfl⟩ := List.mem_map.1 ha
        exact pairDen_nonneg p.1 p.2)
    have hdpos : 0 < (ps.map (fun p => pairDen p.1 p.2)).sum :=
      lt_of_le_of_ne hden0 (Ne.symm hden)
    have hle : (ps.map (fun p => pairNum p.1 p.2)).sum ≤
        (ps.map (fun p => pairDen p.1 p.2)).sum :=
      listSum_map_le _ _ ps (fun a _ => pairNum_le_pairDen a.1 a.2)
    have hc : (ps.map (fun p => pairNum p.1 p.2)).sum /
        (ps.map (fun p => pairDen p.1 p.2)).sum = c := Option.some.inj h
    constructor
    · rw [← hc]
      exact div_nonneg hnum0 hden0
    · rw [← hc]
      exact (div_le_one hdpos).2 hle

theorem foldRec_score (trainer : Trainer) (hp : HP) (bs ne : ℕ)
    (xtr : List (List ℚ)) (ytr : List (ℚ × ℚ))
    (xte : List (List ℚ)) (yte : List (ℚ × ℚ)) :
    (foldRec trainer hp bs ne xtr ytr xte yte).score =
      concordance_index
        ((foldRec trainer hp bs ne xtr ytr xte yte).cargs.times)
        ((foldRec trainer hp bs ne xtr ytr xte yte).cargs.scores)
        ((foldRec trainer hp bs ne xtr ytr xte yte).cargs.events) := rfl

theorem foldRecs_mem (trainer : Trainer) (hp : HP) (bs ne : ℕ)
    (x : List (List ℚ)) (y : List (ℚ × ℚ)) (nfolds : ℕ) (r : FoldRec)
    (hr : r ∈ foldRecs trainer hp bs ne x y nfolds) :
    ∃ k < nfolds, r = foldRec trainer hp bs ne
      (foldTrain nfolds k x) (foldTrain nfolds k y)
      (foldTest nfolds k x) (foldTest nfolds k y) := by
  obtain ⟨k, hk, rfl⟩ := List.mem_map.1 hr
  exact ⟨k, List.mem_range.1 hk, rfl⟩

theorem foldRec_score_mem (trainer : Trainer) (hp : HP) (bs ne : ℕ)
    (x : List (List ℚ)) (y : List (ℚ × ℚ)) (nfolds : ℕ) (r : FoldRec) (v : ℚ)
    (hr : r ∈ foldRecs trainer hp bs ne x y nfolds) (hv : r.score = some v) :
    0 ≤ v ∧ v ≤ 1 := by
  obtain ⟨k, _, rfl⟩ := foldRecs_mem trainer hp bs ne x y nfolds r hr
  exact concordance_some_mem _ _ _ v ((foldRec_score trainer hp bs ne _ _ _ _) ▸ hv)

theorem modelrun_eq_some (trainer : Trainer) (x : List (List ℚ))
    (y : List (ℚ × ℚ)) (nfolds bs ne : ℕ) (hp : HP) (s : ℚ)
    (h : modelrun trainer x y nfolds bs ne hp = some s) :
    (∀ r ∈ foldRecs trainer hp bs ne x y nfolds, r.score.isSome) ∧
    s = ((foldRecs trainer hp bs ne x y nfolds).map
          (fun r => r.score.getD 0)).sum / (nfolds : ℚ) := by
  unfold modelrun at h
  by_cases hall : (foldRecs trainer hp bs ne x y nfolds).all
      (fun r => r.score.isSome)
  · refine ⟨fun r hr => (List.all_eq_true.1 hall) r hr, ?_⟩
    rw [if_pos hall] at h
    exact (Option.some.inj h).symm
  · rw [if_neg hall] at h
    exact absurd h (by simp)

theorem foldRecs_length (trainer : Trainer) (hp : HP) (bs ne : ℕ)
    (x : List (List ℚ)) (y : List (ℚ × ℚ)) (nfolds : ℕ) :
    (foldRecs trainer hp bs ne x y nfolds).length = nfolds := by
  unfold foldRecs
  rw [List.length_map, List.length_range]

theorem modelrun_some_mem (trainer : Trainer) (x : List (List ℚ))
    (y : List (ℚ × ℚ)) (nfolds bs ne : ℕ) (hp : HP) (s : ℚ)
    (h : modelrun trainer x y nfolds bs ne hp = some s) : 0 ≤ s ∧ s ≤ 1 := by
  obtain ⟨hall, hs⟩ := modelrun_eq_some trainer x y nfolds bs ne hp s h
  set rs := foldRecs trainer hp bs ne x y nfolds with hrs
  have hmem : ∀ a ∈ rs.map (fun r => r.score.getD 0), 0 ≤ a ∧ a ≤ 1 := by
    intro a ha
    obtain ⟨r, hrmem, rfl⟩ := List.mem_map.1 ha
    obtain ⟨v, hv⟩ := Option.isSome_iff_exists.1 (hall r hrmem)
    have := foldRec_score_mem trainer hp bs ne x y nfolds r v (hrs ▸ hrmem) hv
    rw [hv]
    exact ⟨this.1, this.2⟩
  have h0 : 0 ≤ (rs.map (fun r => r.score.getD 0)).sum :=
    listSum_nonneg _ (fun a ha => (hmem a ha).1)
  have h1 : (rs.map (fun r => r.score.getD 0)).sum ≤ (nfolds : ℚ) := by
    have := listSum_le_len (rs.map (fun r => r.score.getD 0))
      (fun a ha => (hmem a ha).2)
    rwa [List.length_map, hrs, foldRecs_length] at this
  constructor
  · rw [hs]
    exact div_nonneg h0 (Nat.cast_nonneg nfolds)
  · rw [hs]
    rcases Nat.eq_zero_or_pos nfolds with h00 | hpos
    · subst h00
      have : rs = [] := by
        have := foldRecs_length trainer hp bs ne x y 0
        exact List.eq_nil_of_length_eq_zero (hrs ▸ this)
      simp [this]
    · have hq : (0 : ℚ) < (nfolds : ℚ) := by exact_mod_cast hpos
      exact (div_le_one hq).2 h1

theorem evalAll_mem (f : HP → Option ℚ) (cs : List HP) (l : List (HP × ℚ))
    (h : evalAll f cs = some l) : ∀ p ∈ l, f p.1 = some p.2 := by
  induction cs generalizing l with
  | nil =>
    unfold evalAll at h
    obtain rfl := Option.some.inj h
    intro p hp
    exact absurd hp (List.not_mem_nil p)
  | cons c cs ih =>
    unfold evalAll at h
    cases hfc : f c with
    | none => rw [hfc] at h; exact absurd h (by simp)
    | some s =>
      rw [hfc] at h
      cases hrest : evalAll f cs with
      | none => rw [hrest] at h; exact absurd h (by simp)
      | some rest =>
        rw [hrest] at h
        obtain rfl := Option.some.inj h
        intro p hp
        rcases List.mem_cons.1 hp with rfl | hmem
        · exact hfc
        · exact ih rest hrest p hmem

theorem evalAll_fst (f : HP → Option ℚ) (cs : List HP) (l : List (HP × ℚ))
    (h : evalAll f cs = some l) : l.map Prod.fst = cs := by
  induction cs generalizing l with
  | nil =>
    unfold evalAll at h
    obtain rfl := Option.some.inj h
    rfl
  | cons c cs ih =>
    unfold evalAll at h
    cases hfc : f c with
    | none => rw [hfc] at h; exact absurd h (by simp)
    | some s =>
      rw [hfc] at h
      cases hrest : evalAll f cs with
      | none => rw [hrest] at h; exact absurd h (by simp)
      | some rest =>
        rw [hrest] at h
        obtain rfl := Option.some.inj h
        simp [ih rest hrest]

theorem pickBest_mem (x : HP × ℚ) (l : List (HP × ℚ)) :
    pickBest x l = x ∨ pickBest x l ∈ l := by
  induction l generalizing x with
  | nil => left; rfl
  | cons y ys ih =>
    unfold pickBest
    rcases ih (if x.2 < y.2 then y else x) with h | h
    · rw [h]
      by_cases hc : x.2 < y.2
      · right
        rw [if_pos hc]
        exact List.mem_cons_self y ys
      · left
        rw [if_neg hc]
    · right
      exact List.mem_cons_of_mem y h

theorem pickBest_self_le (x : HP × ℚ) (l : List (HP × ℚ)) :
    x.2 ≤ (pickBest x l).2 := by
  induction l generalizing x with
  | nil => exact le_refl _
  | cons z zs ih =>
    unfold pickBest
    by_cases hc : x.2 < z.2
    · rw [if_pos hc]
      exact le_of_lt (lt_of_lt_of_le hc (ih z))
    · rw [if_neg hc]
      exact ih x

theorem pickBest_le (x : HP × ℚ) (l : List (HP × ℚ)) (y : HP × ℚ)
    (hy : y = x ∨ y ∈ l) : y.2 ≤ (pickBest x l).2 := by
  induction l generalizing x with
  | nil =>
    rcases hy with rfl | h
    · exact le_refl _
    · exact absurd h (List.not_mem_nil y)
  | cons z zs ih =>
    unfold pickBest
    rcases hy with rfl | hmem
    · by_cases hc : y.2 < z.2
      · rw [if_pos hc]
        exact le_of_lt (lt_of_lt_of_le hc (pickBest_self_le z zs))
      · rw [if_neg hc]
        exact pickBest_self_le y zs
    · rcases List.mem_cons.1 hmem with rfl | hmem2
      · by_cases hc : x.2 < y.2
        · rw [if_pos hc]
          exact pickBest_self_le y zs
        · rw [if_neg hc]
          exact le_trans (le_of_not_lt hc) (pickBest_self_le x zs)
      · exact ih _ (Or.inr hmem2)

theorem maximize_spec (f : HP → Option ℚ) (num_evals : ℕ) (sp : SearchSpace)
    (seed : ℕ → ℕ → ℚ) (t : HP × SearchLog × Unit)
    (h : maximize f num_evals sp seed = some t) :
    t.1 ∈ candidates sp seed num_evals ∧
    f t.1 = some t.2.1.optimum ∧
    (∀ c ∈ candidates sp seed num_evals, ∃ s, f c = some s) ∧
    ∀ c ∈ candidates sp seed num_evals, ∀ s, f c = some s →
      s ≤ t.2.1.optimum := by
  unfold maximize at h
  cases hev : evalAll f (candidates sp seed num_evals) with
  | none => rw [hev] at h; exact absurd h (by simp)
  | some l =>
    rw [hev] at h
    cases l with
    | nil => exact absurd h (by simp)
    | cons e es =>
      obtain rfl := Option.some.inj h
      have hbest := pickBest_mem e es
      have hmem : pickBest e es ∈ e :: es := by
        rcases hbest with hb | hb
        · rw [hb]; exact List.mem_cons_self e es
        · exact List.mem_cons_of_mem e hb
      refine ⟨?_, ?_, ?_, ?_⟩
      · have := evalAll_fst f _ _ hev
        rw [← this]
        exact List.mem_map.2 ⟨pickBest e es, hmem, rfl⟩
      · exact evalAll_mem f _ _ hev (pickBest e es) hmem
      · intro c hc
        have hfst := evalAll_fst f _ _ hev
        rw [← hfst] at hc
        obtain ⟨p, hp, hpe⟩ := List.mem_map.1 hc
        refine ⟨p.2, ?_⟩
        rw [← hpe]
        exact evalAll_mem f _ _ hev p hp
      · intro c hc s hs
        have hfst := evalAll_fst f _ _ hev
        rw [← hfst] at hc
        obtain ⟨p, hp, hpe⟩ := List.mem_map.1 hc
        have hfp := evalAll_mem f _ _ hev p hp
        rw [hpe] at hfp
        rw [hs] at hfp
        obtain rfl := Option.some.inj hfp
        rcases List.mem_cons.1 hp with rfl | hp2
        · exact pickBest_le p es p (Or.inl rfl)
        · exact pickBest_le e es p (Or.inr hp2)

theorem hypersearch_eq_some (trainer : Trainer) (seed : ℕ → ℕ → ℚ)
    (x : List (List ℚ)) (y : List (ℚ × ℚ)) (method : String)
    (nfolds nevals : ℕ) (sp : SearchSpace) (bs ne : ℕ)
    (pars : HP) (log : SearchLog)
    (h : hypersearch_DL trainer seed x y method nfolds nevals sp bs ne =
      some (pars, log)) :
    maximize (modelrun trainer x y nfolds bs ne) nevals sp seed =
      some (pars, log, ()) := by
  unfold hypersearch_DL at h
  cases hm : maximize (modelrun trainer x y nfolds bs ne) nevals sp seed with
  | none => rw [hm] at h; exact absurd h (by simp)
  | some t =>
    rw [hm] at h
    obtain ⟨a, b, u⟩ := t
    cases u
    have ht := Option.some.inj h
    rw [Prod.mk.injEq] at ht
    obtain ⟨h1, h2⟩ := ht
    subst h1
    subst h2
    rfl

theorem candidates_mem (sp : SearchSpace) (seed : ℕ → ℕ → ℚ) (nevals : ℕ)
    (c : HP) (hc : c ∈ candidates sp seed nevals) :
    ∃ k < nevals, c = sampleHP sp (seed k) := by
  obtain ⟨k, hk, rfl⟩ := List.mem_map.1 hc
  exact ⟨k, List.mem_range.1 hk, rfl⟩

/-- C1: for every call to hypersearch_DL with well-formed non-empty
(low, high) ranges for lrexp, l1rexp, dro, units1, units2 and alpha, and
nfolds >= 1 and nevals >= 1, the returned optimal hyperparameter mapping
assigns to each of those six names a value lying within its supplied
bounds. -/
theorem C1_returned_pars_within_bounds (trainer : Trainer)
    (seed : ℕ → ℕ → ℚ) (x : List (List ℚ)) (y : List (ℚ × ℚ))
    (method : String) (nfolds nevals : ℕ) (sp : SearchSpace) (bs ne : ℕ)
    (pars : HP) (log : SearchLog)
    (h1 : sp.lrexp.lo ≤ sp.lrexp.hi) (h2 : sp.l1rexp.lo ≤ sp.l1rexp.hi)
    (h3 : sp.dro.lo ≤ sp.dro.hi) (h4 : sp.units1.lo ≤ sp.units1.hi)
    (h5 : sp.units2.lo ≤ sp.units2.hi) (h6 : sp.alpha.lo ≤ sp.alpha.hi)
    (hnf : 1 ≤ nfolds) (hne : 1 ≤ nevals)
    (h : hypersearch_DL trainer seed x y method nfolds nevals sp bs ne =
      some (pars, log)) :
    inB sp.lrexp pars.lrexp ∧ inB sp.l1rexp pars.l1rexp ∧
    inB sp.dro pars.dro ∧ inB sp.units1 pars.units1 ∧
    inB sp.units2 pars.units2 ∧ inB sp.alpha pars.alpha := by
  have hm := hypersearch_eq_some trainer seed x y method nfolds nevals sp bs
    ne pars log h
  obtain ⟨hmem, -, -, -⟩ := maximize_spec _ _ _ _ _ hm
  obtain ⟨k, -, hk⟩ := candidates_mem sp seed nevals pars hmem
  subst hk
  exact ⟨sampleIn_mem _ _ h1, sampleIn_mem _ _ h2, sampleIn_mem _ _ h3,
    sampleIn_mem _ _ h4, sampleIn_mem _ _ h5, sampleIn_mem _ _ h6⟩

/-- Witness for C1 at a concrete call: the search over sp0 with the constant
trainer returns pars0, whose coordinates sit inside the six ranges. -/
theorem C1_returned_pars_within_bounds_witness :
    inB sp0.lrexp pars0.lrexp ∧ inB sp0.l1rexp pars0.l1rexp ∧
    inB sp0.dro pars0.dro ∧ inB sp0.units1 pars0.units1 ∧
    inB sp0.units2 pars0.units2 ∧ inB sp0.alpha pars0.alpha :=
  C1_returned_pars_within_bounds trainer0 seed0 x0 y0 "random" 2 1 sp0 16 100
    pars0 log0 (by norm_num [sp0]) (by norm_num [sp0]) (by norm_num [sp0])
    (by norm_num [sp0]) (by norm_num [sp0]) (by norm_num [sp0])
    (by norm_num) (by norm_num) (by with_unfolding_all decide)

/-- C2: for every call to hypersearch_DL that returns (in particular whenever
every held-out fold has a comparable pair, so every concordance evaluation is
defined), the optimum score recorded in the returned search log lies in the
closed interval from 0 to 1. -/
theorem C2_optimum_in_unit_interval (trainer : Trainer) (seed : ℕ → ℕ → ℚ)
    (x : List (List ℚ)) (y : List (ℚ × ℚ)) (method : String)
    (nfolds nevals : ℕ) (sp : SearchSpace) (bs ne : ℕ)
    (pars : HP) (log : SearchLog)
    (h : hypersearch_DL trainer seed x y method nfolds nevals sp bs ne =
      some (pars, log)) :
    0 ≤ log.optimum ∧ log.optimum ≤ 1 := by
  have hm := hypersearch_eq_some trainer seed x y method nfolds nevals sp bs
    ne pars log h
  obtain ⟨-, hopt, -, -⟩ := maximize_spec _ _ _ _ _ hm
  exact modelrun_some_mem trainer x y nfolds bs ne pars log.optimum hopt

/-- Witness for C2 at a concrete call: the witness search returns optimum 1/2,
inside the unit interval. -/
theorem C2_optimum_in_unit_interval_witness :
    0 ≤ log0.optimum ∧ log0.optimum ≤ 1 :=
  C2_optimum_in_unit_interval trainer0 seed0 x0 y0 "random" 2 1 sp0 16 100
    pars0 log0 (by with_unfolding_all decide)

/-- C3 counterexample: the claim says the concordance metric receives the
survival times as first argument with the times stored in the FIRST outcome
column.  In the concrete fold evaluation r0 of an actual search, the first
argument handed to concordance_index is NOT the first-column projection of
the held-out outcome rows: the code passes y_test[:,1] (the second column)
as the times. -/
theorem C3_counterexample :
    r0 ∈ searchFoldRecs trainer0 seed0 x0 y0 2 1 sp0 16 100 ∧
    r0.cargs.times ≠ r0.yte.map (fun row => row.1) := by
  with_unfolding_all decide

/-- C3 (amended): for every evaluation of the inner closure modelrun during a
search, the concordance metric is called with the held-out fold's SECOND
outcome column (the survival times) as first argument, the negation of the
model's predicted risk scores as second argument, and the FIRST outcome
column (the binary censoring/event indicators) as third argument. -/
theorem C3_concordance_call_columns (trainer : Trainer) (seed : ℕ → ℕ → ℚ)
    (x : List (List ℚ)) (y : List (ℚ × ℚ)) (nfolds nevals : ℕ)
    (sp : SearchSpace) (bs ne : ℕ) (r : FoldRec)
    (hr : r ∈ searchFoldRecs trainer seed x y nfolds nevals sp bs ne) :
    r.cargs.times = r.yte.map (fun row => row.2) ∧
    r.cargs.scores = r.cv_preds.map (fun p => -p) ∧
    r.cargs.events = r.yte.map (fun row => row.1) := by
  obtain ⟨hp, hhp, hrf⟩ := List.mem_flatMap.1 hr
  obtain ⟨k, -, rfl⟩ := foldRecs_mem trainer hp bs ne x y nfolds _ hrf
  exact ⟨rfl, rfl, rfl⟩

/-- Witness for the amended C3 at the concrete fold evaluation r0. -/
theorem C3_concordance_call_columns_witness :
    r0.cargs.times = r0.yte.map (fun row => row.2) ∧
    r0.cargs.scores = r0.cv_preds.map (fun p => -p) ∧
    r0.cargs.events = r0.yte.map (fun row => row.1) :=
  C3_concordance_call_columns trainer0 seed0 x0 y0 2 1 sp0 16 100 r0
    (by with_unfolding_all decide)

/-- C4: for every hyperparameter candidate evaluated during a returning
search, the inner closure trains one model per fold on the training fold,
scores it on the held-out fold with the concordance metric, and the score of
a candidate is the average of the nfolds fold scores; the optimizer returns a
candidate whose score is maximal among all evaluated candidates and records
it as the optimum. -/
theorem C4_cv_maximization (trainer : Trainer) (seed : ℕ → ℕ → ℚ)
    (x : List (List ℚ)) (y : List (ℚ × ℚ)) (method : String)
    (nfolds nevals : ℕ) (sp : SearchSpace) (bs ne : ℕ)
    (pars : HP) (log : SearchLog)
    (h : hypersearch_DL trainer seed x y method nfolds nevals sp bs ne =
      some (pars, log)) :
    modelrun trainer x y nfolds bs ne pars = some log.optimum ∧
    (∀ c ∈ candidates sp seed nevals, ∃ s,
      modelrun trainer x y nfolds bs ne c = some s ∧ s ≤ log.optimum) ∧
    (∀ hp s, modelrun trainer x y nfolds bs ne hp = some s →
      s = ((foldRecs trainer hp bs ne x y nfolds).map
            (fun r => r.score.getD 0)).sum / (nfolds : ℚ) ∧
      (foldRecs trainer hp bs ne x y nfolds).length = nfolds ∧
      ∀ r ∈ foldRecs trainer hp bs ne x y nfolds,
        r.score = concordance_index r.cargs.times r.cargs.scores
          r.cargs.events) := by
  have hm := hypersearch_eq_some trainer seed x y method nfolds nevals sp bs
    ne pars log h
  obtain ⟨-, hopt, hex, hmax⟩ := maximize_spec _ _ _ _ _ hm
  refine ⟨hopt, ?_, ?_⟩
  · intro c hc
    obtain ⟨s, hs⟩ := hex c hc
    exact ⟨s, hs, hmax c hc s hs⟩
  · intro hp s hmr
    obtain ⟨-, hsum⟩ := modelrun_eq_some trainer x y nfolds bs ne hp s hmr
    refine ⟨hsum, foldRecs_length trainer hp bs ne x y nfolds, ?_⟩
    intro r hrr
    obtain ⟨k, -, rfl⟩ := foldRecs_mem trainer hp bs ne x y nfolds r hrr
    exact foldRec_score trainer hp bs ne _ _ _ _

/-- Witness for C4 at a concrete call. -/
theorem C4_cv_maximization_witness :
    modelrun trainer0 x0 y0 2 16 100 pars0 = some log0.optimum ∧
    (∀ c ∈ candidates sp0 seed0 1, ∃ s,
      modelrun trainer0 x0 y0 2 16 100 c = some s ∧ s ≤ log0.optimum) ∧
    (∀ hp s, modelrun trainer0 x0 y0 2 16 100 hp = some s →
      s = ((foldRecs trainer0 hp 16 100 x0 y0 2).map
            (fun r => r.score.getD 0)).sum / ((2 : ℕ) : ℚ) ∧
      (foldRecs trainer0 hp 16 100 x0 y0 2).length = 2 ∧
      ∀ r ∈ foldRecs trainer0 hp 16 100 x0 y0 2,
        r.score = concordance_index r.cargs.times r.cargs.scores
          r.cargs.events) :=
  C4_cv_maximization trainer0 seed0 x0 y0 "random" 2 1 sp0 16 100 pars0 log0
    (by with_unfolding_all decide)

/-- C5: with degenerate single-value ranges (low = high) for every
hyperparameter, nfolds = 2, nevals = 1 and method random, a returning call
gives back exactly the degenerate value for every parameter, and the
returned optimum is the (finite rational) cross-validated score achieved at
that point. -/
theorem C5_degenerate_ranges (trainer : Trainer) (seed : ℕ → ℕ → ℚ)
    (x : List (List ℚ)) (y : List (ℚ × ℚ)) (method : String)
    (nfolds nevals : ℕ) (sp : SearchSpace) (bs ne : ℕ)
    (pars : HP) (log : SearchLog)
    (hd1 : sp.lrexp.hi = sp.lrexp.lo) (hd2 : sp.l1rexp.hi = sp.l1rexp.lo)
    (hd3 : sp.dro.hi = sp.dro.lo) (hd4 : sp.units1.hi = sp.units1.lo)
    (hd5 : sp.units2.hi = sp.units2.lo) (hd6 : sp.alpha.hi = sp.alpha.lo)
    (hmet : method = "random") (hnf : nfolds = 2) (hne : nevals = 1)
    (h : hypersearch_DL trainer seed x y method nfolds nevals sp bs ne =
      some (pars, log)) :
    pars.lrexp = sp.lrexp.lo ∧ pars.l1rexp = sp.l1rexp.lo ∧
    pars.dro = sp.dro.lo ∧ pars.units1 = sp.units1.lo ∧
    pars.units2 = sp.units2.lo ∧ pars.alpha = sp.alpha.lo ∧
    modelrun trainer x y nfolds bs ne pars = some log.optimum := by
  have hm := hypersearch_eq_some trainer seed x y method nfolds nevals sp bs
    ne pars log h
  obtain ⟨hmem, hopt, -, -⟩ := maximize_spec _ _ _ _ _ hm
  obtain ⟨k, -, hk⟩ := candidates_mem sp seed nevals pars hmem
  subst hk
  exact ⟨sampleIn_degenerate _ _ hd1, sampleIn_degenerate _ _ hd2,
    sampleIn_degenerate _ _ hd3, sampleIn_degenerate _ _ hd4,
    sampleIn_degenerate _ _ hd5, sampleIn_degenerate _ _ hd6, hopt⟩

/-- Witness for C5 at a concrete degenerate call over sp1. -/
theorem C5_degenerate_ranges_witness :
    pars1.lrexp = sp1.lrexp.lo ∧ pars1.l1rexp = sp1.l1rexp.lo ∧
    pars1.dro = sp1.dro.lo ∧ pars1.units1 = sp1.units1.lo ∧
    pars1.units2 = sp1.units2.lo ∧ pars1.alpha = sp1.alpha.lo ∧
    modelrun trainer0 x0 y0 2 16 100 pars1 = some log0.optimum :=
  C5_degenerate_ranges trainer0 seed0 x0 y0 "random" 2 1 sp1 16 100 pars1
    log0 rfl rfl rfl rfl rfl rfl rfl rfl rfl (by with_unfolding_all decide)

/-- C7: every successful call produces exactly two printed lines, the first
reporting the selected hyperparameters and the second the cross-validated
score formatted to three decimal places, and nothing else. -/
theorem C7_printed_output (trainer : Trainer) (seed : ℕ → ℕ → ℚ)
    (x : List (List ℚ)) (y : List (ℚ × ℚ)) (method : String)
    (nfolds nevals : ℕ) (sp : SearchSpace) (bs ne : ℕ)
    (pars : HP) (log : SearchLog)
    (h : hypersearch_DL trainer seed x y method nfolds nevals sp bs ne =
      some (pars, log)) :
    hypersearch_output trainer seed x y method nfolds nevals sp bs ne =
      some (printedLines pars log) ∧
    (printedLines pars log).length = 2 ∧
    printedLines pars log =
      ["Optimal hyperparameters : " ++ reprHP pars,
       "Cross-validated C after tuning: " ++ fmt3 log.optimum] := by
  refine ⟨?_, rfl, rfl⟩
  unfold hypersearch_output
  rw [h]
  rfl

/-- Witness for C7 at a concrete call. -/
theorem C7_printed_output_witness :
    hypersearch_output trainer0 seed0 x0 y0 "random" 2 1 sp0 16 100 =
      some (printedLines pars0 log0) ∧
    (printedLines pars0 log0).length = 2 ∧
    printedLines pars0 log0 =
      ["Optimal hyperparameters : " ++ reprHP pars0,
       "Cross-validated C after tuning: " ++ fmt3 log0.optimum] :=
  C7_printed_output trainer0 seed0 x0 y0 "random" 2 1 sp0 16 100 pars0 log0
    (by with_unfolding_all decide)

/-- C8: hypersearch_DL is stateless and treats the loaded dataset as
read-only: the notebook state (x_full, y_full) after a call equals the state
before it, and a second identical call started from the post-call state
returns the same value. -/
theorem C8_stateless_readonly (trainer : Trainer) (seed : ℕ → ℕ → ℚ)
    (method : String) (nfolds nevals : ℕ) (sp : SearchSpace) (bs ne : ℕ)
    (st : NotebookState) :
    (hypersearch_step trainer seed method nfolds nevals sp bs ne st).1 = st ∧
    (hypersearch_step trainer seed method nfolds nevals sp bs ne
        ((hypersearch_step trainer seed method nfolds nevals sp bs ne
          st).1)).2 =
      (hypersearch_step trainer seed method nfolds nevals sp bs ne st).2 :=
  ⟨rfl, rfl⟩

/-- C9: in every training call made during a search, the batch size and epoch
count are passed through unchanged (hence identical across all evaluations),
the learning rate 10 raised to the passed exponent is strictly positive, as
is the L1 strength 10 raised to its exponent, and the exponents are exactly
those of a sampled candidate. -/
theorem C9_train_call_args (trainer : Trainer) (seed : ℕ → ℕ → ℚ)
    (x : List (List ℚ)) (y : List (ℚ × ℚ)) (nfolds nevals : ℕ)
    (sp : SearchSpace) (bs ne : ℕ) (r : FoldRec)
    (hr : r ∈ searchFoldRecs trainer seed x y nfolds nevals sp bs ne) :
    r.targs.batchsize = bs ∧ r.targs.numepochs = ne ∧
    (0 : ℝ) < (10 : ℝ) ^ ((r.targs.lrexp : ℝ)) ∧
    (0 : ℝ) < (10 : ℝ) ^ ((r.targs.l1rexp : ℝ)) ∧
    ∃ hp ∈ candidates sp seed nevals,
      r.targs.lrexp = hp.lrexp ∧ r.targs.l1rexp = hp.l1rexp := by
  obtain ⟨hp, hhp, hrf⟩ := List.mem_flatMap.1 hr
  obtain ⟨k, -, rfl⟩ := foldRecs_mem trainer hp bs ne x y nfolds _ hrf
  exact ⟨rfl, rfl, Real.rpow_pos_of_pos (by norm_num) _,
    Real.rpow_pos_of_pos (by norm_num) _, hp, hhp, rfl, rfl⟩

/-- Witness for C9 at the concrete fold evaluation r0. -/
theorem C9_train_call_args_witness :
    r0.targs.batchsize = 16 ∧ r0.targs.numepochs = 100 ∧
    (0 : ℝ) < (10 : ℝ) ^ ((r0.targs.lrexp : ℝ)) ∧
    (0 : ℝ) < (10 : ℝ) ^ ((r0.targs.l1rexp : ℝ)) ∧
    ∃ hp ∈ candidates sp0 seed0 1,
      r0.targs.lrexp = hp.lrexp ∧ r0.targs.l1rexp = hp.l1rexp :=
  C9_train_call_args trainer0 seed0 x0 y0 2 1 sp0 16 100 r0
    (by with_unfolding_all decide)

/-- C10: every successful call returns exactly the pair of the first two
components of the maximize triple, discarding the third, and the predictions
the closure scores are taken from the second element (index 1) of the
model's prediction output. -/
theorem C10_pair_and_index1 (trainer : Trainer) (seed : ℕ → ℕ → ℚ)
    (x : List (List ℚ)) (y : List (ℚ × ℚ)) (method : String)
    (nfolds nevals : ℕ) (sp : SearchSpace) (bs ne : ℕ) :
    hypersearch_DL trainer seed x y method nfolds nevals sp bs ne =
      Option.map (fun t => (t.1, t.2.1))
        (maximize (modelrun trainer x y nfolds bs ne) nevals sp seed) ∧
    ∀ (hp : HP) (xtr : List (List ℚ)) (ytr : List (ℚ × ℚ))
      (xte : List (List ℚ)) (yte : List (ℚ × ℚ)),
      (foldRec trainer hp bs ne xtr ytr xte yte).cv_preds =
        ((trainer (trainArgsFor hp bs ne xtr ytr)) xte).2 := by
  constructor
  · unfold hypersearch_DL
    cases maximize (modelrun trainer x y nfolds bs ne) nevals sp seed <;> rfl
  · intro hp xtr ytr xte yte
    rfl

end FourDSurvival
